import Mathlib

/-!
Verification of the omnom streaming-parser extension library.

The library extends a buffered byte source (Rust `BufRead`; the canonical
instance exercised by the tests and doc examples is `std::io::Cursor`, whose
`fill_buf` returns the whole unread remainder and whose `consume(n)` adds `n`
to the position) with predicate-bounded, delimiter-bounded, exact-length and
skipping operations, plus a fixed-width integer codec.

The embedding below models the buffered source as a cursor over a list of
bytes together with a script of error injections: each underlying primitive
call (`fill_buf` or a one-byte `read`) pops one entry from the script; a
`some e` entry makes that call fail with `e`, a `none` entry (or an empty
script) lets it behave normally.  Loops in the source are embedded as
fuel-indexed recursions returning `none` when the fuel runs out, so that a
loop that never exits is the function that is `none` at every fuel.
-/

namespace Omnom

/-- The I/O error kinds distinguished by the library: `interrupted`
(`ErrorKind::Interrupted`, always retried), `eof`
(`ErrorKind::UnexpectedEof`), and any other error. -/
inductive IOErr where
  | interrupted : IOErr
  | eof : IOErr
  | other : IOErr
deriving DecidableEq, Repr

/-- A buffered byte source: cursor data and position (as in `io::Cursor`),
plus a script of injected errors consumed one entry per underlying call. -/
structure Src where
  data : List Nat
  pos : Nat
  errs : List (Option IOErr)
deriving DecidableEq, Repr

/-- Pop the next error-script entry. -/
def nextErr (s : Src) : Option IOErr × Src :=
  match s.errs with
  | [] => (none, s)
  | e :: t => (e, { s with errs := t })

/-- `BufRead::fill_buf` on a cursor: returns the whole unread remainder
without advancing the position (or the scripted error). -/
def fill_buf (s : Src) : Except IOErr (List Nat) × Src :=
  match nextErr s with
  | (some e, s₁) => (.error e, s₁)
  | (none, s₁) => (.ok (s₁.data.drop s₁.pos), s₁)

/-- `BufRead::consume(n)` on a cursor: advance the position by `n`. -/
def consume (n : Nat) (s : Src) : Src :=
  { s with pos := s.pos + n }

/-- A one-byte `Read::read` on a cursor (`self.read(slice::from_mut(&mut byte))`):
returns `none` at end of input (`Ok(0)`), otherwise the byte, advancing
the position (or the scripted error). -/
def read_one (s : Src) : Except IOErr (Option Nat) × Src :=
  match nextErr s with
  | (some e, s₁) => (.error e, s₁)
  | (none, s₁) =>
    match s₁.data.drop s₁.pos with
    | [] => (.ok none, s₁)
    | b :: _ => (.ok (some b), { s₁ with pos := s₁.pos + 1 })

/-- The remaining (unread) bytes of a source. -/
def remaining (s : Src) : List Nat := s.data.drop s.pos

/-- The error surfaced to the caller by an operation result, if any. -/
def surfacedErr {α β : Type} : Option (Except IOErr α × β) → Option IOErr
  | some (.error e, _) => some e
  | _ => none

/-- `BufReadExt::read_while` (src/lib.rs:122): loop on `fill_buf`; retry on
`Interrupted`; on another error `consume(read)` and return it; break when the
buffer is empty; otherwise iterate the available bytes, appending and counting
while the predicate holds, and on the first non-matching byte break out of the
outer loop; finally `consume(read)` and return `Ok(read)`.  The iteration over
one available buffer is pure, so it is embedded with `takeWhile`: when every
available byte matches, the outer loop runs again; otherwise the outer loop is
left with the matched span appended. -/
def read_while (p : Nat → Bool) :
    Nat → Src → List Nat → Nat → Option (Except IOErr Nat × List Nat × Src)
  | 0, _, _, _ => none
  | fuel + 1, s, buf, read =>
    match fill_buf s with
    | (.error e, s₁) =>
      if e = .interrupted then read_while p fuel s₁ buf read
      else some (.error e, buf, consume read s₁)
    | (.ok avail, s₁) =>
      if avail = [] then some (.ok read, buf, consume read s₁)
      else
        let matched := avail.takeWhile p
        if matched.length = avail.length then
          read_while p fuel s₁ (buf ++ matched) (read + matched.length)
        else
          some (.ok (read + matched.length), buf ++ matched,
            consume (read + matched.length) s₁)

/-- `BufReadExt::fill_while` (src/lib.rs:196): loop reading one byte at a time
through `Read::read` (which advances the cursor); break returning `Ok(read)` at
end of input; if the byte matches, append it and count it; if it does not
match, count it anyway and break; retry on `Interrupted`; return other
errors. -/
def fill_while (p : Nat → Bool) :
    Nat → Src → List Nat → Nat → Option (Except IOErr Nat × List Nat × Src)
  | 0, _, _, _ => none
  | fuel + 1, s, buf, read =>
    match read_one s with
    | (.error e, s₁) =>
      if e = .interrupted then fill_while p fuel s₁ buf read
      else some (.error e, buf, s₁)
    | (.ok none, s₁) => some (.ok read, buf, s₁)
    | (.ok (some b), s₁) =>
      if p b then fill_while p fuel s₁ (buf ++ [b]) (read + 1)
      else some (.ok (read + 1), buf, s₁)

/-- `memchr::memchr`: index of the first occurrence of `b`, if any. -/
def memchr (b : Nat) : List Nat → Option Nat
  | [] => none
  | a :: t => if a = b then some 0 else (memchr b t).map (· + 1)

/-- `BufReadExt::fill_until` (src/lib.rs:284): loop on `fill_buf` (retrying
`Interrupted`, surfacing other errors); slice off the first `read` bytes of
the available buffer; search it with `memchr`; if the delimiter is found at
`i`, append the span up to and including it and finish; otherwise append the
whole slice and loop, finishing when the slice was empty.  The position is
never advanced. -/
def fill_until (d : Nat) :
    Nat → Src → List Nat → Nat → Option (Except IOErr Nat × List Nat × Src)
  | 0, _, _, _ => none
  | fuel + 1, s, buf, read =>
    match fill_buf s with
    | (.error e, s₁) =>
      if e = .interrupted then fill_until d fuel s₁ buf read
      else some (.error e, buf, s₁)
    | (.ok avail0, s₁) =>
      let avail := avail0.drop read
      match memchr d avail with
      | some i => some (.ok (read + (i + 1)), buf ++ avail.take (i + 1), s₁)
      | none =>
        let used := avail.length
        if used = 0 then some (.ok read, buf ++ avail, s₁)
        else fill_until d fuel s₁ (buf ++ avail) (read + used)

/-- `BufReadExt::fill_exact` (src/lib.rs:376): loop on `fill_buf` (retrying
`Interrupted`, surfacing other errors); as soon as at least `len` bytes are
available, copy the first `len` of them out and return `Ok`; otherwise loop
again.  There is no end-of-file branch. -/
def fill_exact (len : Nat) :
    Nat → Src → Option (Except IOErr (List Nat) × Src)
  | 0, _ => none
  | fuel + 1, s =>
    match fill_buf s with
    | (.error e, s₁) =>
      if e = .interrupted then fill_exact len fuel s₁
      else some (.error e, s₁)
    | (.ok avail, s₁) =>
      if len ≤ avail.length then some (.ok (avail.take len), s₁)
      else fill_exact len fuel s₁

/-- `BufReadExt::skip` (src/lib.rs:394): while `read < n`: `fill_buf`
(retrying `Interrupted`, surfacing other errors); break when empty; otherwise
`consume(1)` and count; then read one byte through `Read::read` (breaking at
end of input, counting and continuing otherwise, retrying `Interrupted`);
after the loop, `consume(read)` again and return `Ok(())`. -/
def skip (n : Nat) :
    Nat → Src → Nat → Option (Except IOErr Unit × Src)
  | 0, _, _ => none
  | fuel + 1, s, read =>
    if read < n then
      match fill_buf s with
      | (.error e, s₁) =>
        if e = .interrupted then skip n fuel s₁ read
        else some (.error e, s₁)
      | (.ok avail, s₁) =>
        if avail = [] then some (.ok (), consume read s₁)
        else
          match read_one (consume 1 s₁) with
          | (.error e, s₂) =>
            if e = .interrupted then skip n fuel s₂ (read + 1)
            else some (.error e, s₂)
          | (.ok none, s₂) => some (.ok (), consume (read + 1) s₂)
          | (.ok (some _), s₂) => skip n fuel s₂ (read + 2)
    else some (.ok (), consume read s)

/-- `BufReadExt::skip_while` (src/lib.rs:428): loop on `fill_buf` (retrying
`Interrupted`, surfacing other errors); break returning the count when empty
or when the first available byte fails the predicate; otherwise `consume(1)`,
count it and loop. -/
def skip_while (p : Nat → Bool) :
    Nat → Src → Nat → Option (Except IOErr Nat × Src)
  | 0, _, _ => none
  | fuel + 1, s, read =>
    match fill_buf s with
    | (.error e, s₁) =>
      if e = .interrupted then skip_while p fuel s₁ read
      else some (.error e, s₁)
    | (.ok [], s₁) => some (.ok read, s₁)
    | (.ok (a :: _), s₁) =>
      if p a then skip_while p fuel (consume 1 s₁) (read + 1)
      else some (.ok read, s₁)

/-- `BufReadExt::skip_until` (src/buf_read_ext.rs:416): loop on `fill_buf`
(retrying `Interrupted`, surfacing other errors); break returning the count
when empty; if the first available byte is the delimiter, `consume(1)`, count
it and break; otherwise `consume(1)`, count it and loop. -/
def skip_until (d : Nat) :
    Nat → Src → Nat → Option (Except IOErr Nat × Src)
  | 0, _, _ => none
  | fuel + 1, s, read =>
    match fill_buf s with
    | (.error e, s₁) =>
      if e = .interrupted then skip_until d fuel s₁ read
      else some (.error e, s₁)
    | (.ok [], s₁) => some (.ok read, s₁)
    | (.ok (a :: _), s₁) =>
      if a = d then some (.ok (read + 1), consume 1 s₁)
      else skip_until d fuel (consume 1 s₁) (read + 1)

/-- Modelled from the spec: the consuming exact-length read used by the codec
(`reader.read_exact(&mut buf)` in src/read_bytes.rs) is `std::io::Read::read_exact`,
whose code is outside this repository; per its documented contract (and §3 of
the spec, `read_exact_into`) it reads until the buffer is filled, retries
interruptions, and fails with an end-of-stream error if the source is
exhausted first.  Embedded here reading one byte per underlying call. -/
def read_exact (w : Nat) :
    Nat → Src → Option (Except IOErr (List Nat) × Src)
  | 0, _ => none
  | fuel + 1, s =>
    match w with
    | 0 => some (.ok [], s)
    | w' + 1 =>
      match read_one s with
      | (.error e, s₁) =>
        if e = .interrupted then read_exact w fuel s₁
        else some (.error e, s₁)
      | (.ok none, s₁) => some (.error .eof, s₁)
      | (.ok (some b), s₁) =>
        match read_exact w' fuel s₁ with
        | none => none
        | some (.error e, s₂) => some (.error e, s₂)
        | some (.ok bs, s₂) => some (.ok (b :: bs), s₂)

/-! ## Fixed-width integer codec

`read_bytes.rs` and `write_bytes.rs` implement, for every integer type `T`
among `u8..u128, usize, i8..i128, isize`, the six decode methods (each reading
exactly `size_of::<T>()` bytes and applying `T::from_{be,le,ne}_bytes`) and the
three encode methods (each writing `T::to_{be,le,ne}_bytes`).  The embedding is
generic over the byte width `w`: an unsigned value is a `Nat < 2^(8*w)` and a
signed value an `Int` in two's-complement range.  Rust's `to_le_bytes` is the
base-256 little-endian digit string and `to_be_bytes` its reverse; the build
target (x86_64) is little-endian, so the `ne` order coincides with `le`. -/

/-- Byte order: big-endian, little-endian, or native. -/
inductive Endian where
  | be : Endian
  | le : Endian
  | ne : Endian
deriving DecidableEq, Repr

/-- `T::to_le_bytes` for an unsigned value: `w` base-256 digits, least
significant first. -/
def to_le_bytes : Nat → Nat → List Nat
  | 0, _ => []
  | w + 1, n => (n % 256) :: to_le_bytes w (n / 256)

/-- `T::from_le_bytes` for an unsigned value. -/
def from_le_bytes : List Nat → Nat
  | [] => 0
  | b :: t => b + 256 * from_le_bytes t

/-- `T::to_*_bytes` for an unsigned value in a given byte order:
big-endian is the reverse of little-endian; the native order of the
x86_64 target is little-endian. -/
def nat_to_bytes (e : Endian) (w n : Nat) : List Nat :=
  match e with
  | .be => (to_le_bytes w n).reverse
  | .le => to_le_bytes w n
  | .ne => to_le_bytes w n

/-- `T::from_*_bytes` for an unsigned value in a given byte order. -/
def nat_from_bytes (e : Endian) (bs : List Nat) : Nat :=
  match e with
  | .be => from_le_bytes bs.reverse
  | .le => from_le_bytes bs
  | .ne => from_le_bytes bs

/-- `T::to_*_bytes` for a signed value: the two's-complement bit pattern is
the unsigned residue modulo `2^(8*w)`. -/
def int_to_bytes (e : Endian) (w : Nat) (i : Int) : List Nat :=
  nat_to_bytes e w (i % ((2 : Int) ^ (8 * w))).toNat

/-- `T::from_*_bytes` for a signed value: decode unsigned, then reinterpret
in two's complement. -/
def int_from_bytes (e : Endian) (w : Nat) (bs : List Nat) : Int :=
  let u := nat_from_bytes e bs
  if u < 2 ^ (8 * w - 1) then (u : Int) else (u : Int) - (2 : Int) ^ (8 * w)

/-- `WriteBytes::write_*_bytes` for an unsigned value: the byte string the
encoder passes to `writer.write_all`, appended to the sink. -/
def write_nat_bytes (e : Endian) (w n : Nat) (sink : List Nat) : List Nat :=
  sink ++ nat_to_bytes e w n

/-- `WriteBytes::write_*_bytes` for a signed value. -/
def write_int_bytes (e : Endian) (w : Nat) (i : Int) (sink : List Nat) : List Nat :=
  sink ++ int_to_bytes e w i

/-- `ReadBytes::read_*_bytes` for an unsigned type of width `w`: read exactly
`w` bytes from the front of the input (an end-of-stream error if fewer remain)
and decode them in the given order; returns the value and the rest of the
input. -/
def read_nat_bytes (e : Endian) (w : Nat) (input : List Nat) :
    Except IOErr (Nat × List Nat) :=
  if w ≤ input.length then .ok (nat_from_bytes e (input.take w), input.drop w)
  else .error .eof

/-- `ReadBytes::read_*_bytes` for a signed type of width `w`. -/
def read_int_bytes (e : Endian) (w : Nat) (input : List Nat) :
    Except IOErr (Int × List Nat) :=
  if w ≤ input.length then .ok (int_from_bytes e w (input.take w), input.drop w)
  else .error .eof

/-- `ReadBytes::fill_*_bytes` for an unsigned type of width `w`
(src/read_bytes.rs:149): `fill_exact` into a `w`-byte buffer, then
`from_*_bytes`; the source position is not advanced. -/
def fill_nat_bytes (e : Endian) (w fuel : Nat) (s : Src) :
    Option (Except IOErr Nat × Src) :=
  match fill_exact w fuel s with
  | none => none
  | some (.error er, s₁) => some (.error er, s₁)
  | some (.ok bs, s₁) => some (.ok (nat_from_bytes e bs), s₁)

/-- `ReadBytes::read_*_bytes` run against a buffered source through the
modelled `std` `read_exact` (src/read_bytes.rs:67): read exactly `w` bytes,
consuming them, then `from_*_bytes`. -/
def read_nat_bytes_src (e : Endian) (w fuel : Nat) (s : Src) :
    Option (Except IOErr Nat × Src) :=
  match read_exact w fuel s with
  | none => none
  | some (.error er, s₁) => some (.error er, s₁)
  | some (.ok bs, s₁) => some (.ok (nat_from_bytes e bs), s₁)

/-- The span of a list up to and including the first occurrence of `d`
(the whole list if `d` does not occur): the bytes `fill_until d` appends
and `skip_until d` consumes. -/
def takeUntilIncl (d : Nat) : List Nat → List Nat
  | [] => []
  | a :: t => if a = d then [a] else a :: takeUntilIncl d t

/-- Iterate `skip_until d`, each call with enough fuel for the current
remainder, summing the reported counts. -/
def repeat_skip_until (d : Nat) : Nat → Src → Nat × Src
  | 0, s => (0, s)
  | k + 1, s =>
    match skip_until d ((s.data.drop s.pos).length + 1) s 0 with
    | some (.ok n, s₁) =>
      let r := repeat_skip_until d k s₁
      (n + r.1, r.2)
    | _ => (0, s)

/-! ## Helper lemmas -/

theorem takeUntilIncl_of_not_mem {d : Nat} {l : List Nat} (h : d ∉ l) :
    takeUntilIncl d l = l := by
  induction l with
  | nil => rfl
  | cons a t ih =>
    simp only [List.mem_cons, not_or] at h
    have ha : a ≠ d := fun hc => h.1 hc.symm
    simp only [takeUntilIncl, if_neg ha]
    rw [ih h.2]

theorem takeUntilIncl_length_le (d : Nat) (l : List Nat) :
    (takeUntilIncl d l).length ≤ l.length := by
  induction l with
  | nil => simp [takeUntilIncl]
  | cons a t ih =>
    simp only [takeUntilIncl]
    split
    · simp
    · simpa using Nat.succ_le_succ ih

theorem memchr_none_takeUntilIncl {d : Nat} {l : List Nat}
    (h : memchr d l = none) : takeUntilIncl d l = l := by
  induction l with
  | nil => rfl
  | cons a t ih =>
    simp only [memchr] at h
    by_cases ha : a = d
    · simp [ha] at h
    · rw [if_neg ha, Option.map_eq_none'] at h
      simp only [takeUntilIncl, if_neg ha]
      rw [ih h]

theorem memchr_some_takeUntilIncl {d : Nat} {l : List Nat} :
    ∀ {i : Nat}, memchr d l = some i → takeUntilIncl d l = l.take (i + 1) := by
  induction l with
  | nil => intro i h; simp [memchr] at h
  | cons a t ih =>
    intro i h
    simp only [memchr] at h
    by_cases ha : a = d
    · simp only [if_pos ha, Option.some_inj] at h
      subst h
      simp [takeUntilIncl, ha]
    · simp only [if_neg ha] at h
      rcases Option.map_eq_some.mp h with ⟨j, hj, hji⟩
      simp only [takeUntilIncl, if_neg ha, ← hji, List.take_succ_cons]
      rw [ih hj]

/-- `List.drop` shifted by one more position. -/
theorem drop_pos_succ {data : List Nat} {pos : Nat} {b : Nat} {t : List Nat}
    (h : data.drop pos = b :: t) : data.drop (pos + 1) = t := by
  have h1 := congrArg (List.drop 1) h
  rw [List.drop_drop] at h1
  simpa [Nat.add_comm] using h1

/-! ## C1: `fill_exact` on a too-short source -/

/-- Claim C1: for every destination length exceeding the number of bytes the
source can make peekable, `fill_exact` never returns at all (at every fuel the
fuel-indexed loop is still running): contrary to the claim and to the method's
own documentation, it neither fails with an end-of-stream error nor performs a
short read — it blocks forever re-calling `fill_buf`. -/
theorem fill_exact_short_diverges :
    ∀ (fuel len : Nat) (data : List Nat) (pos : Nat),
      (data.drop pos).length < len →
      fill_exact len fuel ⟨data, pos, []⟩ = none := by
  intro fuel
  induction fuel with
  | zero => intro len data pos _; rfl
  | succ fuel ih =>
    intro len data pos h
    simp only [fill_exact, fill_buf, nextErr]
    rw [if_neg (by omega)]
    exact ih len data pos h

/-- Witness for C1 at the concrete input of an empty source and a 1-byte
destination. -/
theorem fill_exact_short_diverges_witness :
    fill_exact 1 5 ⟨[], 0, []⟩ = none :=
  fill_exact_short_diverges 5 1 [] 0 (by decide)

/-! ## C2: `fill_while` advances the position -/

/-- Claim C2: contrary to the claim, a successful `fill_while` does not leave
the read position where it was: on source bytes 97,98 (an input whose first
byte matches the predicate and whose second does not) the call succeeds and
leaves the position at 2, not at its initial value 0 — it consumed both the
matching byte and the non-matching lookahead byte. -/
theorem fill_while_moves_position :
    fill_while (fun b => b = 97) 3 ⟨[97, 98], 0, []⟩ [] 0
      = some (.ok 2, [97], ⟨[97, 98], 2, []⟩)
    ∧ (Src.mk [97, 98] 2 []).pos ≠ (Src.mk [97, 98] 0 []).pos :=
  ⟨rfl, by decide⟩

/-! ## C3: `read_while` on an input every byte of which matches -/

theorem read_while_all_match_aux :
    ∀ (fuel : Nat) (buf : List Nat) (read : Nat),
      read_while (fun b => b = 97) fuel ⟨[97, 97, 97, 97, 97], 0, []⟩ buf read
        = none := by
  intro fuel
  induction fuel with
  | zero => intro buf read; rfl
  | succ fuel ih =>
    intro buf read
    simp only [read_while, fill_buf, nextErr]
    simpa using ih (buf ++ [97, 97, 97, 97, 97]) (read + 5)

/-- Claim C3: contrary to the claim (and the repository's own test
`read_while_cursor`), `read_while` on the input of five 97-bytes with the
predicate that matches 97 does not terminate with 5: because `consume` is
deferred past the loop while `fill_buf` keeps returning the same unconsumed
bytes, the loop re-appends the same bytes at every iteration — at every fuel
the fuel-indexed recursion is still running. -/
theorem read_while_aaaaa_diverges :
    ∀ fuel : Nat,
      read_while (fun b => b = 97) fuel ⟨[97, 97, 97, 97, 97], 0, []⟩ [] 0
        = none :=
  fun fuel => read_while_all_match_aux fuel [] 0

/-! ## C4: `skip` overshoots -/

/-- Claim C4: contrary to the claim, `skip n` does not advance the read
position past exactly `n` bytes: each loop iteration consumes one byte via
`consume(1)` and a second via `Read::read`, counting both, and then consumes
`read` again after the loop, so `skip 2` on a 4-byte source ends at
position 4, not 2. -/
theorem skip_two_advances_four :
    skip 2 10 ⟨[97, 98, 99, 100], 0, []⟩ 0
      = some (.ok (), ⟨[97, 98, 99, 100], 4, []⟩)
    ∧ (Src.mk [97, 98, 99, 100] 4 []).pos ≠ 2 :=
  ⟨rfl, by decide⟩

/-! ## C5: what `fill_while` counts -/

theorem fill_while_spec_aux :
    ∀ (rem : List Nat) (p : Nat → Bool) (data : List Nat)
      (pos : Nat) (buf : List Nat) (read : Nat),
      data.drop pos = rem →
      fill_while p (rem.length + 1) ⟨data, pos, []⟩ buf read =
        (if (rem.takeWhile p).length = rem.length
         then some (.ok (read + (rem.takeWhile p).length),
                buf ++ rem.takeWhile p,
                ⟨data, pos + (rem.takeWhile p).length, []⟩)
         else some (.ok (read + (rem.takeWhile p).length + 1),
                buf ++ rem.takeWhile p,
                ⟨data, pos + (rem.takeWhile p).length + 1, []⟩)) := by
  intro rem
  induction rem with
  | nil =>
    intro p data pos buf read h
    simp [fill_while, read_one, nextErr, h]
  | cons b t ih =>
    intro p data pos buf read h
    rw [show (b :: t).length + 1 = t.length + 1 + 1 by simp]
    rw [fill_while]
    simp only [read_one, nextErr, h]
    by_cases hb : p b
    · simp only [hb, if_true]
      have hdrop := drop_pos_succ h
      rw [ih p data (pos + 1) (buf ++ [b]) (read + 1) hdrop]
      simp only [List.takeWhile_cons, hb, if_true, List.length_cons]
      by_cases hlen : (t.takeWhile p).length = t.length
      · rw [if_pos hlen, if_pos (by omega)]
        simp only [Option.some_inj, Prod.mk.injEq, Except.ok.injEq,
          Src.mk.injEq, List.append_assoc, List.singleton_append]
        refine ⟨by omega, trivial, trivial, by omega, trivial⟩
      · rw [if_neg hlen, if_neg (by omega)]
        simp only [Option.some_inj, Prod.mk.injEq, Except.ok.injEq,
          Src.mk.injEq, List.append_assoc, List.singleton_append]
        refine ⟨by omega, trivial, trivial, by omega, trivial⟩
    · have hb' : p b = false := by simpa using hb
      simp only [hb', Bool.false_eq_true, if_false]
      simp only [List.takeWhile_cons, hb', Bool.false_eq_true, if_false,
        List.length_nil, List.length_cons]
      rw [if_neg (by omega)]
      simp

/-- Counterexample to claim C5 as stated: on source bytes 97,98 with the
predicate matching 97, `fill_while` returns `Ok 2` while appending only one
byte. -/
theorem fill_while_count_not_appended :
    fill_while (fun b => b = 97) 3 ⟨[97, 98], 0, []⟩ [] 0
      = some (.ok 2, [97], ⟨[97, 98], 2, []⟩)
    ∧ ([97] : List Nat).length ≠ 2 :=
  ⟨rfl, by decide⟩

/-- Claim C5 (amended): when `fill_while` returns `Ok n`, `n` is the number
of bytes read from the source: it equals the count of appended bytes when the
scan stopped at end of input, and the count of appended bytes plus one when
the scan stopped at a non-matching byte; the appended bytes are exactly the
maximal matching span of the remainder, and the position advances by `n`. -/
theorem fill_while_count_spec :
    ∀ (p : Nat → Bool) (data : List Nat) (pos : Nat) (buf : List Nat),
      fill_while p (((data.drop pos).length + 1)) ⟨data, pos, []⟩ buf 0 =
        (if ((data.drop pos).takeWhile p).length = (data.drop pos).length
         then some (.ok ((data.drop pos).takeWhile p).length,
                buf ++ (data.drop pos).takeWhile p,
                ⟨data, pos + ((data.drop pos).takeWhile p).length, []⟩)
         else some (.ok (((data.drop pos).takeWhile p).length + 1),
                buf ++ (data.drop pos).takeWhile p,
                ⟨data, pos + ((data.drop pos).takeWhile p).length + 1, []⟩)) := by
  intro p data pos buf
  simpa using fill_while_spec_aux (data.drop pos) p data pos buf 0 rfl

/-! ## C6: `fill_until` characterization -/

theorem memchr_some_length {d : Nat} {l : List Nat} {i : Nat}
    (h : memchr d l = some i) : i + 1 ≤ l.length := by
  induction l generalizing i with
  | nil => simp [memchr] at h
  | cons a t ih =>
    simp only [memchr] at h
    by_cases ha : a = d
    · simp only [if_pos ha, Option.some_inj] at h
      simp [← h]
    · simp only [if_neg ha] at h
      rcases Option.map_eq_some.mp h with ⟨j, hj, hji⟩
      have := ih hj
      simp only [List.length_cons]
      omega

/-- Claim C6: `fill_until d` appends to the buffer exactly the bytes of the
remainder up to and including the first occurrence of `d`, returns the number
of bytes appended, and leaves the source unchanged; when `d` does not occur
it appends the whole remainder, at end of input it appends nothing and
returns 0, and when `d` is the very first byte it appends just `[d]`. -/
theorem fill_until_spec :
    ∀ (d : Nat) (data : List Nat) (pos : Nat) (buf : List Nat),
      fill_until d 2 ⟨data, pos, []⟩ buf 0
        = some (.ok (takeUntilIncl d (data.drop pos)).length,
            buf ++ takeUntilIncl d (data.drop pos), ⟨data, pos, []⟩)
      ∧ (d ∉ data.drop pos → takeUntilIncl d (data.drop pos) = data.drop pos)
      ∧ (data.drop pos = [] → takeUntilIncl d (data.drop pos) = [])
      ∧ (∀ t : List Nat, data.drop pos = d :: t →
          takeUntilIncl d (data.drop pos) = [d]) := by
  intro d data pos buf
  refine ⟨?_, takeUntilIncl_of_not_mem, fun h => by rw [h]; rfl,
    fun t ht => by rw [ht]; simp [takeUntilIncl]⟩
  rw [fill_until]
  simp only [fill_buf, nextErr, List.drop_zero]
  cases hm : memchr d (data.drop pos) with
  | some i =>
    rw [memchr_some_takeUntilIncl hm]
    have hle := memchr_some_length hm
    have hle' : i + 1 ≤ data.length - pos := by
      simpa using hle
    simp [List.length_take, Nat.min_eq_left, hle']
  | none =>
    rw [memchr_none_takeUntilIncl hm]
    by_cases hz : (data.drop pos).length = 0
    · rw [if_pos hz]
      simp [List.eq_nil_of_length_eq_zero hz]
    · rw [if_neg hz]
      rw [fill_until]
      have hp : pos ≤ data.length := by
        by_contra hc
        push_neg at hc
        have : List.drop pos data = [] := List.drop_eq_nil_of_le (by omega)
        simp [this] at hz
      simp [fill_buf, nextErr, memchr, Nat.add_sub_cancel' hp]

/-- Witness for C6 on the first seven bytes of the `lorem-ipsum` example with
delimiter 45, plus the delimiter-first, delimiter-absent and end-of-input
cases at concrete inputs. -/
theorem fill_until_spec_witness :
    fill_until 45 2 ⟨[108, 111, 114, 101, 109, 45, 105], 0, []⟩ [] 0
      = some (.ok 6, [108, 111, 114, 101, 109, 45],
          ⟨[108, 111, 114, 101, 109, 45, 105], 0, []⟩)
    ∧ takeUntilIncl 45 (List.drop 0 [45, 97]) = [45]
    ∧ takeUntilIncl 45 (List.drop 0 [97, 98]) = List.drop 0 [97, 98]
    ∧ takeUntilIncl 45 (List.drop 2 [97, 98]) = [] := by
  refine ⟨?_, ?_, ?_, ?_⟩
  · exact (fill_until_spec 45 [108, 111, 114, 101, 109, 45, 105] 0 []).1
  · exact (fill_until_spec 45 [45, 97] 0 []).2.2.2 [97] rfl
  · exact (fill_until_spec 45 [97, 98] 0 []).2.1 (by decide)
  · exact (fill_until_spec 45 [97, 98] 2 []).2.2.1 rfl

/-! ## C7: `skip_until` characterization and repeated exhaustion -/

theorem skip_until_aux :
    ∀ (rem : List Nat) (d : Nat) (data : List Nat) (pos read : Nat),
      data.drop pos = rem →
      skip_until d (rem.length + 1) ⟨data, pos, []⟩ read
        = some (.ok (read + (takeUntilIncl d rem).length),
            ⟨data, pos + (takeUntilIncl d rem).length, []⟩) := by
  intro rem
  induction rem with
  | nil =>
    intro d data pos read h
    rw [skip_until]
    simp [fill_buf, nextErr, h, takeUntilIncl]
  | cons a t ih =>
    intro d data pos read h
    rw [show (a :: t).length + 1 = t.length + 1 + 1 by simp]
    rw [skip_until]
    simp only [fill_buf, nextErr, h]
    by_cases ha : a = d
    · simp only [if_pos ha, takeUntilIncl, consume]
      simp [ha]
    · simp only [if_neg ha]
      have hdrop : ({ data := data, pos := pos, errs := [] } : Src).data.drop
          (pos + 1) = t := drop_pos_succ h
      have hrec := ih d data (pos + 1) (read + 1) hdrop
      simp only [consume]
      rw [hrec]
      simp only [takeUntilIncl, if_neg ha, List.length_cons,
        Option.some_inj, Prod.mk.injEq, Except.ok.injEq, Src.mk.injEq]
      refine ⟨by omega, trivial, by omega, trivial⟩

theorem takeUntilIncl_length_pos {d : Nat} {l : List Nat} (h : l ≠ []) :
    0 < (takeUntilIncl d l).length := by
  cases l with
  | nil => exact absurd rfl h
  | cons a t =>
    simp only [takeUntilIncl]
    split <;> simp

theorem remaining_after_take {data : List Nat} {pos k : Nat} :
    data.drop (pos + k) = (data.drop pos).drop k := by
  rw [List.drop_drop, Nat.add_comm]

theorem repeat_skip_until_aux :
    ∀ (m d : Nat) (s : Src), s.errs = [] →
      (s.data.drop s.pos).length ≤ m →
      repeat_skip_until d (m + 1) s
        = ((s.data.drop s.pos).length,
           ⟨s.data, s.pos + (s.data.drop s.pos).length, []⟩) := by
  intro m
  induction m with
  | zero =>
    intro d s hs hlen
    obtain ⟨data, pos, errs⟩ := s
    subst hs
    simp only at hlen
    have hnil : data.drop pos = [] := List.eq_nil_of_length_eq_zero (by omega)
    rw [repeat_skip_until]
    rw [skip_until_aux (data.drop pos) d data pos 0 rfl]
    simp [hnil, repeat_skip_until, takeUntilIncl]
  | succ m ih =>
    intro d s hs hlen
    obtain ⟨data, pos, errs⟩ := s
    subst hs
    simp only at hlen
    rw [repeat_skip_until]
    rw [skip_until_aux (data.drop pos) d data pos 0 rfl]
    simp only
    by_cases hrem : data.drop pos = []
    · have h0 : (takeUntilIncl d (data.drop pos)).length = 0 := by
        rw [hrem]; rfl
      have hple : data.length ≤ pos := by
        have hc := congrArg List.length hrem
        simp at hc
        omega
      have hrec := ih d ⟨data, pos + (takeUntilIncl d (data.drop pos)).length, []⟩
        rfl (by simp only [h0]; simp [hrem])
      simp only at hrec
      rw [hrec]
      simp [h0, hrem, takeUntilIncl]
    · have hpos : 0 < (takeUntilIncl d (data.drop pos)).length :=
        takeUntilIncl_length_pos hrem
      have hle : (takeUntilIncl d (data.drop pos)).length
          ≤ (data.drop pos).length := takeUntilIncl_length_le _ _
      have hrem1 : data.drop (pos + (takeUntilIncl d (data.drop pos)).length)
          = (data.drop pos).drop (takeUntilIncl d (data.drop pos)).length :=
        remaining_after_take
      have hb : (List.drop pos data).length = data.length - pos := by simp
      have hlen1 : ((data.drop pos).drop
          (takeUntilIncl d (data.drop pos)).length).length ≤ m := by
        rw [List.length_drop]
        omega
      have hrec := ih d ⟨data, pos + (takeUntilIncl d (data.drop pos)).length, []⟩
        rfl (by simp only; rw [hrem1]; exact hlen1)
      simp only at hrec
      rw [hrec]
      rw [hrem1]
      simp only [Prod.mk.injEq, Src.mk.injEq, List.length_drop]
      refine ⟨by omega, ⟨trivial, by omega, trivial⟩⟩

/-- Claim C7: `skip_until d` advances the position past all bytes up to and
including the first occurrence of `d` (or to end of input when `d` is absent,
since then `takeUntilIncl` is the whole remainder) and returns the count
skipped; and applied repeatedly (here `length + 1` times, enough calls for any
input) it exhausts the source with the reported counts summing to the total
input length. -/
theorem skip_until_spec :
    (∀ (d : Nat) (data : List Nat) (pos : Nat),
      skip_until d ((data.drop pos).length + 1) ⟨data, pos, []⟩ 0
        = some (.ok (takeUntilIncl d (data.drop pos)).length,
            ⟨data, pos + (takeUntilIncl d (data.drop pos)).length, []⟩))
    ∧ (∀ (d : Nat) (data : List Nat),
      repeat_skip_until d (data.length + 1) ⟨data, 0, []⟩
        = (data.length, ⟨data, data.length, []⟩)) := by
  constructor
  · intro d data pos
    simpa using skip_until_aux (data.drop pos) d data pos 0 rfl
  · intro d data
    have := repeat_skip_until_aux data.length d ⟨data, 0, []⟩ rfl (by simp)
    simpa using this

/-! ## C8: codec round-trip -/

theorem to_le_bytes_length : ∀ (w n : Nat), (to_le_bytes w n).length = w := by
  intro w
  induction w with
  | zero => intro n; rfl
  | succ w ih => intro n; simp [to_le_bytes, ih]

theorem from_to_le_bytes :
    ∀ (w n : Nat), n < 256 ^ w → from_le_bytes (to_le_bytes w n) = n := by
  intro w
  induction w with
  | zero =>
    intro n h
    simp only [pow_zero, Nat.lt_one_iff] at h
    simp [h, to_le_bytes, from_le_bytes]
  | succ w ih =>
    intro n h
    have hdiv : n / 256 < 256 ^ w := by
      rw [Nat.div_lt_iff_lt_mul (by norm_num)]
      calc n < 256 ^ (w + 1) := h
        _ = 256 ^ w * 256 := by ring
    simp only [to_le_bytes, from_le_bytes, ih (n / 256) hdiv]
    omega

theorem pow_256_eq (w : Nat) : (256 : Nat) ^ w = 2 ^ (8 * w) := by
  rw [show (256 : Nat) = 2 ^ 8 by norm_num, ← pow_mul]

theorem nat_to_bytes_length (e : Endian) (w n : Nat) :
    (nat_to_bytes e w n).length = w := by
  cases e <;> simp [nat_to_bytes, to_le_bytes_length]

theorem nat_bytes_roundtrip (e : Endian) (w n : Nat) (h : n < 2 ^ (8 * w)) :
    nat_from_bytes e (nat_to_bytes e w n) = n := by
  have h' : n < 256 ^ w := by rw [pow_256_eq]; exact h
  cases e <;>
    simp [nat_to_bytes, nat_from_bytes, List.reverse_reverse,
      from_to_le_bytes w n h']

/-- Claim C8: for every byte width (hence every supported integer type),
every byte order, and every representable value — unsigned values below
`2 ^ (8 * w)`, signed values in the two's-complement range — encoding with
`write_*_bytes` and then decoding the written bytes with the same order
returns the original value and consumes exactly the written bytes. -/
theorem codec_roundtrip :
    (∀ (e : Endian) (w n : Nat) (rest : List Nat), n < 2 ^ (8 * w) →
      read_nat_bytes e w (write_nat_bytes e w n [] ++ rest) = .ok (n, rest))
    ∧ (∀ (e : Endian) (w : Nat) (i : Int) (rest : List Nat), 0 < w →
      -(2 : Int) ^ (8 * w - 1) ≤ i → i < (2 : Int) ^ (8 * w - 1) →
      read_int_bytes e w (write_int_bytes e w i [] ++ rest) = .ok (i, rest)) := by
  have hsplit : ∀ (e : Endian) (w n : Nat) (rest : List Nat),
      (nat_to_bytes e w n ++ rest).take w = nat_to_bytes e w n
      ∧ (nat_to_bytes e w n ++ rest).drop w = rest
      ∧ w ≤ (nat_to_bytes e w n ++ rest).length := by
    intro e w n rest
    refine ⟨List.take_left' (nat_to_bytes_length e w n),
      List.drop_left' (nat_to_bytes_length e w n), ?_⟩
    simp [nat_to_bytes_length]
  constructor
  · intro e w n rest h
    obtain ⟨ht, hd, hl⟩ := hsplit e w n rest
    simp only [read_nat_bytes, write_nat_bytes, List.nil_append, if_pos hl,
      ht, hd]
    rw [nat_bytes_roundtrip e w n h]
  · intro e w i rest hw hlo hhi
    simp only [write_int_bytes, int_to_bytes, List.nil_append]
    set u : Nat := (i % ((2 : Int) ^ (8 * w))).toNat with hu
    obtain ⟨ht, hd, hl⟩ := hsplit e w u rest
    simp only [read_int_bytes, if_pos hl, ht, hd]
    have hMH : 8 * w = (8 * w - 1) + 1 := by omega
    have hM2 : (2 : Nat) ^ (8 * w) = 2 * 2 ^ (8 * w - 1) :=
      calc (2 : Nat) ^ (8 * w) = 2 ^ ((8 * w - 1) + 1) := by rw [← hMH]
        _ = 2 ^ (8 * w - 1) * 2 := pow_succ 2 _
        _ = 2 * 2 ^ (8 * w - 1) := Nat.mul_comm _ _
    have hMint : ((2 : Int) ^ (8 * w)) = ((2 ^ (8 * w) : Nat) : Int) := by
      push_cast
      rfl
    have hHint : ((2 : Int) ^ (8 * w - 1)) = ((2 ^ (8 * w - 1) : Nat) : Int) := by
      push_cast
      rfl
    have hHpos : (0 : Int) < (2 : Int) ^ (8 * w - 1) := by positivity
    have hemod : i % ((2 : Int) ^ (8 * w))
        = if 0 ≤ i then i else i + (2 : Int) ^ (8 * w) := by
      by_cases hi : 0 ≤ i
      · rw [if_pos hi]
        refine Int.emod_eq_of_lt hi ?_
        calc i < (2 : Int) ^ (8 * w - 1) := hhi
          _ ≤ (2 : Int) ^ (8 * w) := by
              rw [hMint, hHint]
              exact_mod_cast Nat.pow_le_pow_right (by norm_num) (by omega)
      · rw [if_neg hi]
        push_neg at hi
        have h1 : i % ((2 : Int) ^ (8 * w))
            = (i + (2 : Int) ^ (8 * w)) % ((2 : Int) ^ (8 * w)) := by
          rw [show i + (2 : Int) ^ (8 * w) = i + (2 : Int) ^ (8 * w) * 1 by ring,
            Int.add_mul_emod_self_left]
        rw [h1]
        refine Int.emod_eq_of_lt ?_ ?_
        · have : -(2 : Int) ^ (8 * w) ≤ i := by
            refine le_trans ?_ hlo
            rw [hMint, hHint]
            have := Nat.pow_le_pow_right (show 1 ≤ 2 by norm_num)
              (show 8 * w - 1 ≤ 8 * w by omega)
            omega
          omega
        · omega
    by_cases hi : 0 ≤ i
    · rw [if_pos hi] at hemod
      have hulb : (u : Int) = i := by
        rw [hu, hemod]
        exact Int.toNat_of_nonneg hi
      have hult : u < 2 ^ (8 * w) := by
        have : (u : Int) < (2 : Int) ^ (8 * w) := by
          rw [hulb]
          calc i < (2 : Int) ^ (8 * w - 1) := hhi
            _ ≤ (2 : Int) ^ (8 * w) := by
                rw [hMint, hHint]
                exact_mod_cast Nat.pow_le_pow_right (by norm_num) (by omega)
        rw [hMint] at this
        exact_mod_cast this
      simp only [int_from_bytes]
      rw [nat_bytes_roundtrip e w u hult]
      have hcond : u < 2 ^ (8 * w - 1) := by
        have : (u : Int) < (2 : Int) ^ (8 * w - 1) := hulb ▸ hhi
        rw [hHint] at this
        exact_mod_cast this
      rw [if_pos hcond, hulb]
    · rw [if_neg hi] at hemod
      push_neg at hi
      have hulb : (u : Int) = i + (2 : Int) ^ (8 * w) := by
        rw [hu, hemod]
        refine Int.toNat_of_nonneg ?_
        have : -(2 : Int) ^ (8 * w) ≤ i := by
          refine le_trans ?_ hlo
          rw [hMint, hHint]
          have := Nat.pow_le_pow_right (show 1 ≤ 2 by norm_num)
            (show 8 * w - 1 ≤ 8 * w by omega)
          omega
        omega
      have hult : u < 2 ^ (8 * w) := by
        have : (u : Int) < (2 : Int) ^ (8 * w) := by
          rw [hulb]
          omega
        rw [hMint] at this
        exact_mod_cast this
      simp only [int_from_bytes]
      rw [nat_bytes_roundtrip e w u hult]
      have hcond : ¬ u < 2 ^ (8 * w - 1) := by
        have hge : (2 : Int) ^ (8 * w - 1) ≤ (u : Int) := by
          have hMint2 : ((2 : Int) ^ (8 * w)) = 2 * (2 : Int) ^ (8 * w - 1) :=
            calc (2 : Int) ^ (8 * w) = (2 : Int) ^ ((8 * w - 1) + 1) := by
                  rw [← hMH]
              _ = (2 : Int) ^ (8 * w - 1) * 2 := pow_succ 2 _
              _ = 2 * (2 : Int) ^ (8 * w - 1) := by ring
          rw [hulb, hMint2]
          omega
        rw [hHint] at hge
        exact fun hc => absurd hge (by exact_mod_cast not_le.mpr hc)
      rw [if_neg hcond, hulb]
      simp only [Except.ok.injEq, Prod.mk.injEq]
      refine ⟨by ring, trivial⟩

/-- Witness for C8: the 16-bit value 12 written and re-read little-endian
(the spec's concrete scenario), and a negative 16-bit value big-endian. -/
theorem codec_roundtrip_witness :
    read_nat_bytes .le 2 (write_nat_bytes .le 2 12 [] ++ []) = .ok (12, [])
    ∧ read_int_bytes .be 2 (write_int_bytes .be 2 (-12) [] ++ []) = .ok (-12, []) :=
  ⟨codec_roundtrip.1 .le 2 12 [] (by norm_num),
   codec_roundtrip.2 .be 2 (-12) [] (by norm_num) (by norm_num) (by norm_num)⟩

/-! ## C10: big-endian decode equals little-endian decode of the reversal -/

/-- Claim C10: decoding a byte sequence of exactly the type's width as
big-endian yields the same value as decoding the reversed sequence as
little-endian, for the unsigned and the signed decoders; and for 1-byte
values all three byte orders decode identically. -/
theorem be_le_reverse_decode :
    (∀ (w : Nat) (bs : List Nat), bs.length = w →
      read_nat_bytes .be w bs = read_nat_bytes .le w bs.reverse)
    ∧ (∀ (w : Nat) (bs : List Nat), bs.length = w →
      read_int_bytes .be w bs = read_int_bytes .le w bs.reverse)
    ∧ (∀ b : Nat,
        nat_from_bytes .be [b] = nat_from_bytes .le [b]
        ∧ nat_from_bytes .ne [b] = nat_from_bytes .le [b]
        ∧ int_from_bytes .be 1 [b] = int_from_bytes .le 1 [b]
        ∧ int_from_bytes .ne 1 [b] = int_from_bytes .le 1 [b]) := by
  have hrev : ∀ w (bs : List Nat), bs.length = w →
      bs.take w = bs ∧ bs.drop w = ([] : List Nat)
      ∧ bs.reverse.take w = bs.reverse ∧ bs.reverse.drop w = ([] : List Nat)
      ∧ w ≤ bs.length ∧ w ≤ bs.reverse.length := by
    intro w bs h
    subst h
    refine ⟨List.take_length bs, List.drop_length bs, ?_, ?_, le_refl _, by simp⟩
    · exact List.take_of_length_le (by simp)
    · exact List.drop_eq_nil_of_le (by simp)
  refine ⟨?_, ?_, ?_⟩
  · intro w bs h
    obtain ⟨h1, h2, h3, h4, h5, h6⟩ := hrev w bs h
    simp only [read_nat_bytes, if_pos h5, if_pos h6, h1, h2, h3, h4]
    rfl
  · intro w bs h
    obtain ⟨h1, h2, h3, h4, h5, h6⟩ := hrev w bs h
    simp only [read_int_bytes, if_pos h5, if_pos h6, h1, h2, h3, h4]
    rfl
  · intro b
    exact ⟨rfl, rfl, rfl, rfl⟩

/-- Witness for C10 at two-byte sequences, unsigned and signed. -/
theorem be_le_reverse_decode_witness :
    read_nat_bytes .be 2 [1, 2] = read_nat_bytes .le 2 [2, 1]
    ∧ read_int_bytes .be 2 [255, 254] = read_int_bytes .le 2 [254, 255] := by
  constructor
  · have := be_le_reverse_decode.1 2 [1, 2] rfl
    simpa using this
  · have := be_le_reverse_decode.2.1 2 [255, 254] rfl
    simpa using this

/-! ## C9: interruptions are never surfaced -/

theorem read_while_no_interrupt :
    ∀ (fuel : Nat) (p : Nat → Bool) (s : Src) (buf : List Nat) (read : Nat),
      surfacedErr (read_while p fuel s buf read) ≠ some .interrupted := by
  intro fuel
  induction fuel with
  | zero => intro p s buf read; simp [read_while, surfacedErr]
  | succ fuel ih =>
    intro p s buf read
    rw [read_while]
    rcases hfb : fill_buf s with ⟨r, s₁⟩
    cases r with
    | error e =>
      by_cases he : e = .interrupted
      · simp only [if_pos he]
        exact ih p s₁ buf read
      · simp only [if_neg he, surfacedErr]
        intro hc
        exact he (Option.some.inj hc)
    | ok avail =>
      by_cases hav : avail = []
      · simp [hav, surfacedErr]
      · simp only [if_neg hav]
        by_cases hlen : (avail.takeWhile p).length = avail.length
        · simp only [if_pos hlen]
          exact ih p s₁ (buf ++ avail.takeWhile p)
            (read + (avail.takeWhile p).length)
        · simp only [if_neg hlen, surfacedErr]
          simp

theorem fill_while_no_interrupt :
    ∀ (fuel : Nat) (p : Nat → Bool) (s : Src) (buf : List Nat) (read : Nat),
      surfacedErr (fill_while p fuel s buf read) ≠ some .interrupted := by
  intro fuel
  induction fuel with
  | zero => intro p s buf read; simp [fill_while, surfacedErr]
  | succ fuel ih =>
    intro p s buf read
    rw [fill_while]
    rcases hro : read_one s with ⟨r, s₁⟩
    cases r with
    | error e =>
      by_cases he : e = .interrupted
      · simp only [if_pos he]
        exact ih p s₁ buf read
      · simp only [if_neg he, surfacedErr]
        intro hc
        exact he (Option.some.inj hc)
    | ok ob =>
      cases ob with
      | none => simp [surfacedErr]
      | some b =>
        by_cases hb : p b
        · simp only [if_pos hb]
          exact ih p s₁ (buf ++ [b]) (read + 1)
        · simp only [if_neg hb, surfacedErr]
          simp

theorem fill_until_no_interrupt :
    ∀ (fuel d : Nat) (s : Src) (buf : List Nat) (read : Nat),
      surfacedErr (fill_until d fuel s buf read) ≠ some .interrupted := by
  intro fuel
  induction fuel with
  | zero => intro d s buf read; simp [fill_until, surfacedErr]
  | succ fuel ih =>
    intro d s buf read
    rw [fill_until]
    rcases hfb : fill_buf s with ⟨r, s₁⟩
    cases r with
    | error e =>
      by_cases he : e = .interrupted
      · simp only [if_pos he]
        exact ih d s₁ buf read
      · simp only [if_neg he, surfacedErr]
        intro hc
        exact he (Option.some.inj hc)
    | ok avail0 =>
      cases hm : memchr d (avail0.drop read) with
      | some i => simp [hm, surfacedErr]
      | none =>
        simp only [hm]
        by_cases hz : (avail0.drop read).length = 0
        · have hz' : avail0.length - read = 0 := by simpa using hz
          simp [hz, hz', surfacedErr]
        · have hz' : ¬ avail0.length - read = 0 := by simpa using hz
          simp only [List.length_drop, if_neg hz']
          exact ih d s₁ (buf ++ avail0.drop read) (read + (avail0.length - read))

theorem fill_exact_no_interrupt :
    ∀ (fuel len : Nat) (s : Src),
      surfacedErr (fill_exact len fuel s) ≠ some .interrupted := by
  intro fuel
  induction fuel with
  | zero => intro len s; simp [fill_exact, surfacedErr]
  | succ fuel ih =>
    intro len s
    rw [fill_exact]
    rcases hfb : fill_buf s with ⟨r, s₁⟩
    cases r with
    | error e =>
      by_cases he : e = .interrupted
      · simp only [if_pos he]
        exact ih len s₁
      · simp only [if_neg he, surfacedErr]
        intro hc
        exact he (Option.some.inj hc)
    | ok avail =>
      by_cases hl : len ≤ avail.length
      · simp [if_pos hl, surfacedErr]
      · simp only [if_neg hl]
        exact ih len s₁

theorem skip_no_interrupt :
    ∀ (fuel n : Nat) (s : Src) (read : Nat),
      surfacedErr (skip n fuel s read) ≠ some .interrupted := by
  intro fuel
  induction fuel with
  | zero => intro n s read; simp [skip, surfacedErr]
  | succ fuel ih =>
    intro n s read
    rw [skip]
    by_cases hr : read < n
    · simp only [if_pos hr]
      rcases hfb : fill_buf s with ⟨r, s₁⟩
      cases r with
      | error e =>
        by_cases he : e = .interrupted
        · simp only [if_pos he]
          exact ih n s₁ read
        · simp only [if_neg he, surfacedErr]
          intro hc
          exact he (Option.some.inj hc)
      | ok avail =>
        by_cases hav : avail = []
        · simp [hav, surfacedErr]
        · simp only [if_neg hav]
          rcases hro : read_one (consume 1 s₁) with ⟨r₂, s₂⟩
          cases r₂ with
          | error e =>
            by_cases he : e = .interrupted
            · simp only [if_pos he]
              exact ih n s₂ (read + 1)
            · simp only [if_neg he, surfacedErr]
              intro hc
              exact he (Option.some.inj hc)
          | ok ob =>
            cases ob with
            | none => simp [surfacedErr]
            | some b => exact ih n s₂ (read + 2)
    · simp [if_neg hr, surfacedErr]

theorem skip_while_no_interrupt :
    ∀ (fuel : Nat) (p : Nat → Bool) (s : Src) (read : Nat),
      surfacedErr (skip_while p fuel s read) ≠ some .interrupted := by
  intro fuel
  induction fuel with
  | zero => intro p s read; simp [skip_while, surfacedErr]
  | succ fuel ih =>
    intro p s read
    rw [skip_while]
    rcases hfb : fill_buf s with ⟨r, s₁⟩
    cases r with
    | error e =>
      by_cases he : e = .interrupted
      · simp only [if_pos he]
        exact ih p s₁ read
      · simp only [if_neg he, surfacedErr]
        intro hc
        exact he (Option.some.inj hc)
    | ok avail =>
      cases avail with
      | nil => simp [surfacedErr]
      | cons a t =>
        by_cases ha : p a
        · simp only [if_pos ha]
          exact ih p (consume 1 s₁) (read + 1)
        · simp [if_neg ha, surfacedErr]

theorem skip_until_no_interrupt :
    ∀ (fuel d : Nat) (s : Src) (read : Nat),
      surfacedErr (skip_until d fuel s read) ≠ some .interrupted := by
  intro fuel
  induction fuel with
  | zero => intro d s read; simp [skip_until, surfacedErr]
  | succ fuel ih =>
    intro d s read
    rw [skip_until]
    rcases hfb : fill_buf s with ⟨r, s₁⟩
    cases r with
    | error e =>
      by_cases he : e = .interrupted
      · simp only [if_pos he]
        exact ih d s₁ read
      · simp only [if_neg he, surfacedErr]
        intro hc
        exact he (Option.some.inj hc)
    | ok avail =>
      cases avail with
      | nil => simp [surfacedErr]
      | cons a t =>
        by_cases ha : a = d
        · simp [if_pos ha, surfacedErr]
        · simp only [if_neg ha]
          exact ih d (consume 1 s₁) (read + 1)

theorem read_exact_no_interrupt :
    ∀ (fuel w : Nat) (s : Src),
      surfacedErr (read_exact w fuel s) ≠ some .interrupted := by
  intro fuel
  induction fuel with
  | zero => intro w s; simp [read_exact, surfacedErr]
  | succ fuel ih =>
    intro w s
    rw [read_exact.eq_def]
    cases w with
    | zero => simp [surfacedErr]
    | succ w' =>
      dsimp only
      split
      · next e s₁ _ =>
        by_cases he : e = .interrupted
        · simp only [if_pos he]
          exact ih (w' + 1) s₁
        · simp only [if_neg he, surfacedErr]
          intro hc
          exact he (Option.some.inj hc)
      · simp [surfacedErr]
      · next b s₁ _ =>
        split
        · simp [surfacedErr]
        · next e s₂ heq =>
          have hni := ih w' s₁
          rw [heq] at hni
          simp only [surfacedErr] at hni ⊢
          exact hni
        · simp [surfacedErr]

theorem fill_nat_bytes_no_interrupt :
    ∀ (e : Endian) (w fuel : Nat) (s : Src),
      surfacedErr (fill_nat_bytes e w fuel s) ≠ some .interrupted := by
  intro e w fuel s
  unfold fill_nat_bytes
  rcases hfe : fill_exact w fuel s with _ | ⟨r, s₁⟩
  · simp [surfacedErr]
  · cases r with
    | error er =>
      have hni := fill_exact_no_interrupt fuel w s
      rw [hfe] at hni
      simp only [surfacedErr] at hni ⊢
      exact hni
    | ok bs => simp [surfacedErr]

theorem read_nat_bytes_src_no_interrupt :
    ∀ (e : Endian) (w fuel : Nat) (s : Src),
      surfacedErr (read_nat_bytes_src e w fuel s) ≠ some .interrupted := by
  intro e w fuel s
  unfold read_nat_bytes_src
  rcases hre : read_exact w fuel s with _ | ⟨r, s₁⟩
  · simp [surfacedErr]
  · cases r with
    | error er =>
      have hni := read_exact_no_interrupt fuel w s
      rw [hre] at hni
      simp only [surfacedErr] at hni ⊢
      exact hni
    | ok bs => simp [surfacedErr]

/-- Claim C9: for every operation of the library — `read_while`,
`fill_while`, `fill_until`, `fill_exact`, `skip`, `skip_while`, `skip_until`,
and the codec decodes through both the peek-only `fill_exact` path and the
consuming `read_exact` path — no interruption error injected by the
underlying source is ever surfaced to the caller, for every input, every
error script and every fuel. -/
theorem no_interrupt_surfaced :
    (∀ (p : Nat → Bool) (fuel : Nat) (s : Src) (buf : List Nat) (read : Nat),
      surfacedErr (read_while p fuel s buf read) ≠ some .interrupted)
    ∧ (∀ (p : Nat → Bool) (fuel : Nat) (s : Src) (buf : List Nat) (read : Nat),
      surfacedErr (fill_while p fuel s buf read) ≠ some .interrupted)
    ∧ (∀ (d fuel : Nat) (s : Src) (buf : List Nat) (read : Nat),
      surfacedErr (fill_until d fuel s buf read) ≠ some .interrupted)
    ∧ (∀ (len fuel : Nat) (s : Src),
      surfacedErr (fill_exact len fuel s) ≠ some .interrupted)
    ∧ (∀ (n fuel : Nat) (s : Src) (read : Nat),
      surfacedErr (skip n fuel s read) ≠ some .interrupted)
    ∧ (∀ (p : Nat → Bool) (fuel : Nat) (s : Src) (read : Nat),
      surfacedErr (skip_while p fuel s read) ≠ some .interrupted)
    ∧ (∀ (d fuel : Nat) (s : Src) (read : Nat),
      surfacedErr (skip_until d fuel s read) ≠ some .interrupted)
    ∧ (∀ (w fuel : Nat) (s : Src),
      surfacedErr (read_exact w fuel s) ≠ some .interrupted)
    ∧ (∀ (e : Endian) (w fuel : Nat) (s : Src),
      surfacedErr (fill_nat_bytes e w fuel s) ≠ some .interrupted)
    ∧ (∀ (e : Endian) (w fuel : Nat) (s : Src),
      surfacedErr (read_nat_bytes_src e w fuel s) ≠ some .interrupted) :=
  ⟨fun p fuel => read_while_no_interrupt fuel p,
   fun p fuel => fill_while_no_interrupt fuel p,
   fun d fuel => fill_until_no_interrupt fuel d,
   fun len fuel => fill_exact_no_interrupt fuel len,
   fun n fuel => skip_no_interrupt fuel n,
   fun p fuel => skip_while_no_interrupt fuel p,
   fun d fuel => skip_until_no_interrupt fuel d,
   fun w fuel => read_exact_no_interrupt fuel w,
   fill_nat_bytes_no_interrupt,
   read_nat_bytes_src_no_interrupt⟩

end Omnom
